import Mathlib

/-!
Verification of the Wordle hard-mode solver (`hardwordle.py`, `wordle.py`).

The solver is embedded shallowly:
* the outcome matrix `M` is a function `Nat → Nat → Nat` (guess index, word
  index ↦ result code; code 0 means exact match);
* candidate sets and guess sets are `List Nat` of indices, filtered exactly as
  the numpy slicing in the source does;
* `solve_cost` becomes `solveCostF`, a fuel-indexed function returning
  `Except Err (Option Nat × Int)`: `.error .oob` models the `IndexError`
  raised by `words[0]` on an empty candidate list, `.error .fuel` marks fuel
  exhaustion (proved unreachable at fuel 7), and `.ok (g?, c)` is the
  `(min_guess, min_cost)` pair returned by the Python code.
-/

namespace WordleSolver

/-- Validity of the outcome matrix: result code 0 (the exact-match code)
occurs precisely when the guess index equals the word index.  This is the
documented meaning of code 0 in the source comments. -/
def MValid (M : Nat → Nat → Nat) : Prop :=
  ∀ g w, M g w = 0 ↔ g = w

/-- Result row `M[g, ws]`: the result code of guess `g` against each word of `ws`. -/
def resultsOf (M : Nat → Nat → Nat) (g : Nat) (ws : List Nat) : List Nat :=
  ws.map (M g)

/-- Model of `np.unique`: the distinct values of a list, in ascending order. -/
def uniqueSorted (l : List Nat) : List Nat :=
  List.insertionSort (fun a b => a ≤ b) l.dedup

/-- Model of the counts array from `np.unique(..., return_counts=True)`:
the occurrence count of each distinct value, aligned with `uniqueSorted`. -/
def countsOf (l : List Nat) : List Nat :=
  (uniqueSorted l).map (fun r => l.count r)

/-- Partition of `ws` on result code `r` against guess `g`: the translation of
`words[np.where(results == result)[0]]` where `results = M[g, words]`. -/
def partOf (M : Nat → Nat → Nat) (g : Nat) (ws : List Nat) (r : Nat) : List Nat :=
  ws.filter (fun w => decide (M g w = r))

/-- Distinct non-exact-match result codes of `g` against `ws`. -/
def nonzeroResults (M : Nat → Nat → Nat) (g : Nat) (ws : List Nat) : List Nat :=
  (uniqueSorted (resultsOf M g ws)).filter (fun r => decide (r ≠ 0))

/-- Model of `unique_results[np.argsort(counts)]`: the distinct result codes
reordered by ascending partition count. -/
def byCount (results : List Nat) (urs : List Nat) : List Nat :=
  List.insertionSort (fun a b => results.count a ≤ results.count b) urs

/-- The code's cheap lower bound for a guess, literally
`n + 2 * sum(counts) - len(counts) - (g in words)`. -/
def minPossibleCost (M : Nat → Nat → Nat) (g : Nat) (ws : List Nat) : Int :=
  (ws.length : Int) + 2 * ((countsOf (resultsOf M g ws)).sum : Int)
    - ((countsOf (resultsOf M g ws)).length : Int)
    - (if g ∈ ws then 1 else 0)

/-- Failure modes of the embedded search: `oob` models the `IndexError` from
`words[0]` on an empty candidate list, `fuel` marks exhaustion of the
recursion fuel. -/
inductive Err where
  | oob : Err
  | fuel : Err
deriving DecidableEq

/-- Inner loop of `solve_cost` over the (count-ordered) result codes of one
guess.  Carries the accumulated `cost`; `mc` is the enclosing `min_cost`,
fixed while one guess is processed.  Mirrors: break when `cost >= min_cost`,
skip result 0, recurse with `new_alpha = min_cost - cost` at depth `d + 1`. -/
def resLoop (rec : List Nat → List Nat → Int → Nat → Except Err (Option Nat × Int))
    (M : Nat → Nat → Nat) (ws sgw : List Nat) (g : Nat) (d : Nat) (mc : Int) :
    List Nat → Int → Except Err Int
  | [], cost => .ok cost
  | r :: rest, cost =>
    if mc ≤ cost then .ok cost
    else if r = 0 then resLoop rec M ws sgw g d mc rest cost
    else
      match rec (partOf M g ws r) (partOf M g sgw r) (mc - cost) (d + 1) with
      | .error e => .error e
      | .ok pr => resLoop rec M ws sgw g d mc rest (cost + pr.2)

/-- Main loop of `solve_cost` over the (sorted) guess list, carrying
`(min_guess, min_cost)`.  Mirrors, in order: the `min_possible_cost` skip, the
two non-word-guess rules, the recursion over result partitions, the best-cost
update, and the `2n - 1` short-circuit return. -/
def guessLoop (rec : List Nat → List Nat → Int → Nat → Except Err (Option Nat × Int))
    (M : Nat → Nat → Nat) (ws sgw : List Nat) (d : Nat) :
    List Nat → Option Nat → Int → Except Err (Option Nat × Int)
  | [], mg, mc => .ok (mg, mc)
  | g :: rest, mg, mc =>
    if mc ≤ minPossibleCost M g ws then guessLoop rec M ws sgw d rest mg mc
    else if g ∉ ws ∧ mc = 2 * (ws.length : Int) then .ok (mg, mc)
    else if g ∉ ws ∧ (countsOf (resultsOf M g ws)).foldr max 0 = ws.length then
      guessLoop rec M ws sgw d rest mg mc
    else
      match resLoop rec M ws sgw g d mc
          (byCount (resultsOf M g ws) (uniqueSorted (resultsOf M g ws)))
          (ws.length : Int) with
      | .error e => .error e
      | .ok cost =>
        let mg' := if cost < mc then some g else mg
        let mc' := if cost < mc then cost else mc
        if mc' = 2 * (ws.length : Int) - 1 then .ok (mg', mc')
        else guessLoop rec M ws sgw d rest mg' mc'

/-- Fuel-indexed embedding of `solve_cost(words, guess_words, alpha, d)`.
One unit of fuel is consumed per recursive call; the depth checks, the
`n <= 2` base case and the main loop follow the source line by line. -/
def solveCostF (M : Nat → Nat → Nat) :
    Nat → List Nat → List Nat → Int → Nat → Except Err (Option Nat × Int)
  | 0, _, _, _, _ => .error .fuel
  | f + 1, ws, gw, alpha, d =>
    if 5 < d then .ok (none, 10000)
    else if d = 5 ∧ 1 < ws.length then .ok (none, 10000)
    else if ws.length ≤ 2 then
      match ws with
      | [] => .error .oob
      | w :: rest => .ok (some w, 2 * ((w :: rest).length : Int) - 1)
    else
      let sgw := List.insertionSort (fun a b => a ≤ b) gw
      guessLoop (solveCostF M f) M ws sgw d sgw none alpha

/-- The solver's `solve_cost`: fuel 7 always suffices (see the termination
theorem), so this is the behaviour of the Python function. -/
def solveCost (M : Nat → Nat → Nat) (ws gw : List Nat) (alpha : Int) (d : Nat) :
    Except Err (Option Nat × Int) :=
  solveCostF M 7 ws gw alpha d

/-- A concrete valid outcome matrix used for counterexamples and witnesses:
guessing a word gives the exact-match code 0 on itself and code 1 otherwise. -/
def cexM (g w : Nat) : Nat :=
  if g = w then 0 else 1

instance {A B : Type} [DecidableEq A] [DecidableEq B] : DecidableEq (Except A B) := fun a b =>
  match a, b with
  | .error e1, .error e2 => decidable_of_iff (e1 = e2) (by simp)
  | .ok r1, .ok r2 => decidable_of_iff (r1 = r2) (by simp)
  | .error _, .ok _ => isFalse (by simp)
  | .ok _, .error _ => isFalse (by simp)

/-- Recognizer for the fuel-exhaustion error, used to state termination. -/
def isFuelErr : Except Err (Option Nat × Int) → Bool
  | .error .fuel => true
  | _ => false

/-- Recognizer for the out-of-bounds error raised by `words[0]` on an empty list. -/
def isOobErr : Except Err (Option Nat × Int) → Bool
  | .error .oob => true
  | _ => false

/-! Basic facts about the partition combinators. -/

theorem mem_uniqueSorted {l : List Nat} {r : Nat} : r ∈ uniqueSorted l ↔ r ∈ l := by
  unfold uniqueSorted
  rw [List.mem_insertionSort, List.mem_dedup]

theorem nodup_uniqueSorted (l : List Nat) : (uniqueSorted l).Nodup :=
  ((List.perm_insertionSort _ l.dedup).symm.nodup (List.nodup_dedup l))

theorem mem_byCount {results urs : List Nat} {r : Nat} : r ∈ byCount results urs ↔ r ∈ urs := by
  unfold byCount
  exact List.mem_insertionSort _

theorem byCount_perm (results urs : List Nat) : (byCount results urs).Perm urs :=
  List.perm_insertionSort _ urs

theorem partOf_ne_nil {M : Nat → Nat → Nat} {g : Nat} {ws : List Nat} {r : Nat}
    (h : r ∈ uniqueSorted (resultsOf M g ws)) : partOf M g ws r ≠ [] := by
  rw [mem_uniqueSorted] at h
  unfold resultsOf at h
  rcases List.mem_map.mp h with ⟨w, hw, hwr⟩
  intro hnil
  have : w ∈ partOf M g ws r := by
    unfold partOf
    rw [List.mem_filter]
    exact ⟨hw, by simp [hwr]⟩
  rw [hnil] at this
  exact (List.not_mem_nil w) this

theorem mem_partOf {M : Nat → Nat → Nat} {g : Nat} {ws : List Nat} {r w : Nat} :
    w ∈ partOf M g ws r ↔ w ∈ ws ∧ M g w = r := by
  unfold partOf
  rw [List.mem_filter]
  simp

/-! Claim C4: the depth-budget sentinel. -/

/-- Claim C4: whenever `d > 5`, or `d = 5` with more than one candidate left,
`solve_cost` returns the absent guess `None` paired with the sentinel cost
10000. -/
theorem solve_cost_depth_sentinel (M : Nat → Nat → Nat) (ws gw : List Nat)
    (alpha : Int) (d : Nat) (h : 5 < d ∨ (d = 5 ∧ 1 < ws.length)) :
    solveCost M ws gw alpha d = .ok (none, 10000) := by
  unfold solveCost solveCostF
  rcases h with h | ⟨h1, h2⟩
  · simp [h]
  · have h5 : ¬ 5 < d := by omega
    simp [h5, h1, h2]

/-- Witness for C4 at a concrete input. -/
theorem solve_cost_depth_sentinel_witness :
    solveCost cexM [0, 1] [] 0 6 = .ok (none, 10000) :=
  solve_cost_depth_sentinel cexM [0, 1] [] 0 6 (Or.inl (by omega))

/-! Claim C3: the size-at-most-2 base case. -/

/-- Counterexample to claim C3 as stated: the claim quantifies over every
depth, but at depth 6 a singleton candidate set yields the depth sentinel
`(None, 10000)`, not the first candidate with cost `2n - 1 = 1`. -/
theorem solve_cost_small_base_cex :
    solveCost cexM [0] [0] 0 6 = .ok (none, 10000) ∧
    (Except.ok (none, (10000 : Int)) : Except Err (Option Nat × Int)) ≠
      .ok (some 0, 1) := by
  refine ⟨solve_cost_depth_sentinel cexM [0] [0] 0 6 (Or.inl (by omega)), ?_⟩
  intro h
  simp at h

/-- Amended claim C3: for a candidate set of size `n` with `1 ≤ n ≤ 2`, a depth
within the budget (`d ≤ 5`, and `d ≤ 4` when `n = 2`), and any guess set and
alpha, `solve_cost` returns the first candidate with cost exactly `2n - 1`,
with no further recursion. -/
theorem solve_cost_small_base (M : Nat → Nat → Nat) (w : Nat) (ws gw : List Nat)
    (alpha : Int) (d : Nat) (hlen : (w :: ws).length ≤ 2) (hd : d ≤ 5)
    (hd2 : (w :: ws).length = 2 → d ≤ 4) :
    solveCost M (w :: ws) gw alpha d = .ok (some w, 2 * ((w :: ws).length : Int) - 1) := by
  unfold solveCost solveCostF
  have h5 : ¬ 5 < d := by omega
  have hws : ws.length ≤ 1 := by
    simp only [List.length_cons] at hlen
    omega
  have h2 : ¬ (d = 5 ∧ 0 < ws.length) := by
    rintro ⟨hh, hh1⟩
    have : (w :: ws).length = 2 := by
      simp only [List.length_cons]
      omega
    have := hd2 this
    omega
  simp [h5, h2, hws]

/-- Witness for the amended C3 at a concrete input. -/
theorem solve_cost_small_base_witness :
    solveCost cexM [3] [] 0 5 = .ok (some 3, 1) := by
  have := solve_cost_small_base cexM 3 [] [] 0 5 (by decide) (by omega) (by decide)
  simpa using this

/-! Claim C9: termination of the search. -/

theorem resLoop_ne_fuelErr {rec : List Nat → List Nat → Int → Nat → Except Err (Option Nat × Int)}
    {M : Nat → Nat → Nat} {ws sgw : List Nat} {g : Nat} {d : Nat} {mc : Int}
    (hrec : ∀ a b c, rec a b c (d + 1) ≠ .error .fuel) :
    ∀ rs cost, resLoop rec M ws sgw g d mc rs cost ≠ .error .fuel := by
  intro rs
  induction rs with
  | nil => intro cost; simp [resLoop]
  | cons r rest ih =>
    intro cost
    unfold resLoop
    split
    · simp
    · split
      · exact ih cost
      · cases hc : rec (partOf M g ws r) (partOf M g sgw r) (mc - cost) (d + 1) with
        | error e =>
          simp only [hc]
          intro h
          injection h with h
          rw [h] at hc
          exact hrec _ _ _ hc
        | ok pr =>
          simp only [hc]
          exact ih _

theorem guessLoop_ne_fuelErr {rec : List Nat → List Nat → Int → Nat → Except Err (Option Nat × Int)}
    {M : Nat → Nat → Nat} {ws sgw : List Nat} {d : Nat}
    (hrec : ∀ a b c, rec a b c (d + 1) ≠ .error .fuel) :
    ∀ l mg mc, guessLoop rec M ws sgw d l mg mc ≠ .error .fuel := by
  intro l
  induction l with
  | nil => intro mg mc; simp [guessLoop]
  | cons g rest ih =>
    intro mg mc
    unfold guessLoop
    split
    · exact ih mg mc
    · split
      · simp
      · split
        · exact ih mg mc
        · cases hc : resLoop rec M ws sgw g d mc
              (byCount (resultsOf M g ws) (uniqueSorted (resultsOf M g ws)))
              (ws.length : Int) with
          | error e =>
            simp only [hc]
            intro h
            injection h with h
            rw [h] at hc
            exact resLoop_ne_fuelErr hrec _ _ hc
          | ok cost =>
            simp only [hc]
            split
            · split
              · simp
              · exact ih _ _
            · split
              · simp
              · exact ih _ _

theorem solveCostF_ne_fuelErr (M : Nat → Nat → Nat) :
    ∀ f d, 1 ≤ f → 6 ≤ f + d → ∀ ws gw alpha,
      solveCostF M f ws gw alpha d ≠ .error .fuel := by
  intro f
  induction f with
  | zero => intro d h1 _ _ _ _; omega
  | succ f ih =>
    intro d _ hfd ws gw alpha
    unfold solveCostF
    split
    · simp
    · split
      · simp
      · split
        · split
          · simp
          · simp
        · rename_i hd5 hd51 hlen
          apply guessLoop_ne_fuelErr
          intro a b c
          apply ih (d + 1)
          · have hd : d ≤ 4 := by
              simp only [not_lt, not_and, not_le] at hd5 hd51 hlen
              rcases Nat.lt_or_ge d 5 with h | h
              · omega
              · exfalso
                have hd5' : d = 5 := by omega
                have := hd51 hd5'
                omega
            omega
          · omega

/-- Claim C9: every call to `solve_cost` terminates.  In the fuel-indexed
embedding, fuel 7 (one frame per depth 0..6, with every call at depth
above 5 returning immediately) is never exhausted, for any input. -/
theorem solve_cost_terminates (M : Nat → Nat → Nat) (ws gw : List Nat)
    (alpha : Int) (d : Nat) : isFuelErr (solveCost M ws gw alpha d) = false := by
  have h := solveCostF_ne_fuelErr M 7 d (by omega) (by omega) ws gw alpha
  unfold solveCost
  cases hc : solveCostF M 7 ws gw alpha d with
  | error e =>
    cases e with
    | oob => rfl
    | fuel => exact absurd hc h
  | ok r => rfl

/-! Claim C10: safety of the `words[0]` access. -/

theorem resLoop_ne_oobErr {rec : List Nat → List Nat → Int → Nat → Except Err (Option Nat × Int)}
    {M : Nat → Nat → Nat} {ws sgw : List Nat} {g : Nat} {d : Nat} {mc : Int}
    (hrec : ∀ a b c, a ≠ [] → rec a b c (d + 1) ≠ .error .oob) :
    ∀ rs, (∀ r ∈ rs, partOf M g ws r ≠ []) →
      ∀ cost, resLoop rec M ws sgw g d mc rs cost ≠ .error .oob := by
  intro rs
  induction rs with
  | nil => intro _ cost; simp [resLoop]
  | cons r rest ih =>
    intro hne cost
    unfold resLoop
    split
    · simp
    · split
      · exact ih (fun r hr => hne r (List.mem_cons_of_mem _ hr)) cost
      · cases hc : rec (partOf M g ws r) (partOf M g sgw r) (mc - cost) (d + 1) with
        | error e =>
          simp only [hc]
          intro h
          injection h with h
          rw [h] at hc
          exact hrec _ _ _ (hne r (List.mem_cons_self r rest)) hc
        | ok pr =>
          simp only [hc]
          exact ih (fun r hr => hne r (List.mem_cons_of_mem _ hr)) _

theorem guessLoop_ne_oobErr {rec : List Nat → List Nat → Int → Nat → Except Err (Option Nat × Int)}
    {M : Nat → Nat → Nat} {ws sgw : List Nat} {d : Nat}
    (hrec : ∀ a b c, a ≠ [] → rec a b c (d + 1) ≠ .error .oob) :
    ∀ l mg mc, guessLoop rec M ws sgw d l mg mc ≠ .error .oob := by
  intro l
  induction l with
  | nil => intro mg mc; simp [guessLoop]
  | cons g rest ih =>
    intro mg mc
    unfold guessLoop
    split
    · exact ih mg mc
    · split
      · simp
      · split
        · exact ih mg mc
        · cases hc : resLoop rec M ws sgw g d mc
              (byCount (resultsOf M g ws) (uniqueSorted (resultsOf M g ws)))
              (ws.length : Int) with
          | error e =>
            simp only [hc]
            intro h
            injection h with h
            rw [h] at hc
            refine resLoop_ne_oobErr hrec _ ?_ _ hc
            intro r hr
            exact partOf_ne_nil (mem_byCount.mp hr)
          | ok cost =>
            simp only [hc]
            split
            · split
              · simp
              · exact ih _ _
            · split
              · simp
              · exact ih _ _

theorem solveCostF_ne_oobErr (M : Nat → Nat → Nat) :
    ∀ f ws gw alpha d, ws ≠ [] → solveCostF M f ws gw alpha d ≠ .error .oob := by
  intro f
  induction f with
  | zero => intro ws gw alpha d _; simp [solveCostF]
  | succ f ih =>
    intro ws gw alpha d hws
    unfold solveCostF
    split
    · simp
    · split
      · simp
      · split
        · split
          · exact absurd rfl hws
          · simp
        · apply guessLoop_ne_oobErr
          intro a b c ha
          exact ih a b c (d + 1) ha

/-- Claim C10: `solve_cost` is safe exactly on non-empty candidate sets.  With
at least one candidate the `words[0]` access (and every recursive one, since
result partitions are never empty) is in bounds, so no out-of-bounds error is
produced; on the empty candidate set at any depth within the budget, the code
reaches the out-of-range `words[0]` access and produces no result. -/
theorem solve_cost_empty_safety (M : Nat → Nat → Nat) (ws gw : List Nat)
    (alpha : Int) (d : Nat) :
    (ws ≠ [] → isOobErr (solveCost M ws gw alpha d) = false) ∧
    (ws = [] → d ≤ 5 → solveCost M ws gw alpha d = .error .oob) := by
  constructor
  · intro hws
    have h := solveCostF_ne_oobErr M 7 ws gw alpha d hws
    unfold solveCost
    cases hc : solveCostF M 7 ws gw alpha d with
    | error e =>
      cases e with
      | oob => exact absurd hc h
      | fuel => rfl
    | ok r => rfl
  · intro hws hd
    subst hws
    unfold solveCost solveCostF
    have h5 : ¬ 5 < d := by omega
    simp [h5]

/-- Witness for C10 at concrete inputs: a singleton candidate set succeeds,
the empty candidate set hits the out-of-range access. -/
theorem solve_cost_empty_safety_witness :
    isOobErr (solveCost cexM [0] [0] 0 0) = false ∧
    solveCost cexM [] [0] 0 0 = .error .oob :=
  ⟨(solve_cost_empty_safety cexM [0] [0] 0 0).1 (by simp),
   (solve_cost_empty_safety cexM [] [0] 0 0).2 rfl (by omega)⟩

/-! Claim C7: partitions are pairwise disjoint and cover the candidate set. -/

theorem sum_map_ite_eq {l : List Nat} (hl : l.Nodup) {x : Nat} (hx : x ∈ l) (c : Nat) :
    (l.map (fun r => if r = x then c else 0)).sum = c := by
  induction l with
  | nil => cases hx
  | cons a t ih =>
    rcases List.mem_cons.mp hx with rfl | hx'
    · have hz : (t.map (fun r => if r = x then c else 0)).sum = 0 := by
        refine List.sum_eq_zero ?_
        intro y hy
        rcases List.mem_map.mp hy with ⟨r, hr, rfl⟩
        have hra : r ≠ x := fun h => (List.nodup_cons.mp hl).1 (h ▸ hr)
        simp [hra]
      simp [List.sum_cons, hz]
    · have ha : a ≠ x := fun h => (List.nodup_cons.mp hl).1 (h ▸ hx')
      simp only [List.map_cons, List.sum_cons, if_neg ha,
        ih (List.nodup_cons.mp hl).2 hx', Nat.zero_add]

theorem count_partOf {M : Nat → Nat → Nat} {g : Nat} {ws : List Nat} {r w : Nat} :
    (partOf M g ws r).count w = if M g w = r then ws.count w else 0 := by
  by_cases h : M g w = r
  · rw [if_pos h]
    exact List.count_filter (by simp [h])
  · rw [if_neg h]
    refine List.count_eq_zero.mpr ?_
    intro hmem
    exact h (mem_partOf.mp hmem).2

/-- Claim C7: the partitions of `ws` obtained by filtering on each distinct
result code of `g` (the exact-match code 0 included when present) are pairwise
disjoint, and their concatenation over all result codes is a permutation of
the input candidate set. -/
theorem partitions_disjoint_cover (M : Nat → Nat → Nat) (g : Nat) (ws : List Nat) :
    ((uniqueSorted (resultsOf M g ws)).Pairwise (fun r s =>
        ∀ w, w ∈ partOf M g ws r → w ∉ partOf M g ws s)) ∧
    ((uniqueSorted (resultsOf M g ws)).flatMap (partOf M g ws)).Perm ws := by
  constructor
  · refine List.Pairwise.imp ?_ (nodup_uniqueSorted (resultsOf M g ws))
    intro r s hrs w hwr hws
    exact hrs ((mem_partOf.mp hwr).2.symm.trans (mem_partOf.mp hws).2)
  · rw [List.perm_iff_count]
    intro w
    rw [List.count_flatMap]
    by_cases hw : w ∈ ws
    · have hmem : M g w ∈ uniqueSorted (resultsOf M g ws) :=
        mem_uniqueSorted.mpr (List.mem_map_of_mem (M g) hw)
      have hcg : ∀ r ∈ uniqueSorted (resultsOf M g ws),
          (List.count w ∘ partOf M g ws) r = (fun r => if r = M g w then ws.count w else 0) r := by
        intro r _
        simp only [Function.comp_apply]
        rw [count_partOf]
        by_cases h : M g w = r
        · simp [h]
        · have h' : r ≠ M g w := fun hh => h hh.symm
          simp [h, h']
      rw [List.map_congr_left hcg, sum_map_ite_eq (nodup_uniqueSorted _) hmem]
    · have h0 : ws.count w = 0 := List.count_eq_zero.mpr hw
      rw [h0]
      refine List.sum_eq_zero ?_
      intro x hx
      rcases List.mem_map.mp hx with ⟨r, _, rfl⟩
      simp only [Function.comp_apply]
      rw [count_partOf]
      split
      · exact h0
      · rfl

/-! Claim C8: the static guess order. -/

/-- Letter frequency table `letter_freqs`: total occurrence count of a letter
across all words of the answer dictionary. -/
def letterFreq (wordDict : List (List Char)) (c : Char) : Nat :=
  (wordDict.map (fun w => w.count c)).sum

/-- The heuristic `h(g)`: sum of the corpus counts of the distinct letters of
guess `g` (each duplicate letter counted once, via `set(...)`). -/
def hVal (wordDict guessDict : List (List Char)) (g : Nat) : Nat :=
  ((guessDict.getD g []).dedup.map (letterFreq wordDict)).sum

/-- The order realized by `sorted(range(n), key=h, reverse=True)`: Python's
sort is stable and `reverse=True` does not reverse ties, so the produced list
is the unique permutation of `range n` that is sorted by heuristic value
descending with ties broken by ascending index.  This linear order captures
exactly that. -/
def hOrd (wordDict guessDict : List (List Char)) (a b : Nat) : Prop :=
  hVal wordDict guessDict b < hVal wordDict guessDict a ∨
    (hVal wordDict guessDict a = hVal wordDict guessDict b ∧ a ≤ b)

instance (W G : List (List Char)) : DecidableRel (hOrd W G) := fun a b => by
  unfold hOrd
  infer_instance

instance (W G : List (List Char)) : IsTotal Nat (hOrd W G) := by
  refine ⟨fun a b => ?_⟩
  unfold hOrd
  omega

instance (W G : List (List Char)) : IsTrans Nat (hOrd W G) := by
  refine ⟨fun a b c hab hbc => ?_⟩
  unfold hOrd at hab hbc ⊢
  omega

/-- The static `guess_order` computed in `__init__`. -/
def guessOrder (wordDict guessDict : List (List Char)) (n : Nat) : List Nat :=
  List.insertionSort (hOrd wordDict guessDict) (List.range n)

/-- Claim C8: the static guess order is a permutation of all guess indices,
sorted by heuristic value descending with ties broken by ascending index. -/
theorem guess_order_sorted (W G : List (List Char)) (n : Nat) :
    (guessOrder W G n).Perm (List.range n) ∧
    (guessOrder W G n).Pairwise (fun a b =>
      hVal W G b < hVal W G a ∨ (hVal W G a = hVal W G b ∧ a < b)) := by
  refine ⟨List.perm_insertionSort _ _, ?_⟩
  have hs : List.Sorted (hOrd W G) (guessOrder W G n) :=
    List.sorted_insertionSort _ _
  have hnd : (guessOrder W G n).Nodup :=
    (List.perm_insertionSort (hOrd W G) (List.range n)).symm.nodup (List.nodup_range n)
  have hne : (guessOrder W G n).Pairwise (fun a b => a ≠ b) := hnd
  refine List.Pairwise.imp ?_ (List.Pairwise.and hs hne)
  intro a b hab
  rcases hab with ⟨hord, hne'⟩
  unfold hOrd at hord
  rcases hord with h | ⟨h1, h2⟩
  · exact Or.inl h
  · exact Or.inr ⟨h1, lt_of_le_of_ne h2 hne'⟩

/-! Claim C2: the memoization cache. -/

/-- Embedding of `FastWordle._solve`.  The Python method looks the candidate
tuple up in the cache, and on a miss assigns
`self.cache[wt] = self._solve(words, guess_words, ...)` — a recursive call to
itself with identical arguments and an unchanged cache — before returning the
stored value.  Fuel-indexed; `none` means the call has not returned within the
given fuel. -/
def fwMemoSolve :
    Nat → List (List Nat × (Option Nat × Int)) → List Nat → List Nat →
    Option (List (List Nat × (Option Nat × Int)) × (Option Nat × Int))
  | 0, _, _, _ => none
  | f + 1, cache, ws, gw =>
    match List.lookup ws cache with
    | some v => some (cache, v)
    | none =>
      match fwMemoSolve f cache ws gw with
      | none => none
      | some (c1, v) => some ((ws, v) :: c1, v)

/-- Claim C2 (code bug): on a cache miss `FastWordle._solve` recurses on
itself with unchanged arguments and an unchanged cache, so the call never
returns — shown here on a concrete candidate set with the empty cache, for
every amount of fuel.  No caching of `solve_cost` results ever takes place
(`cache_cost` has its memoization commented out). -/
theorem fw_memo_solve_diverges : ∀ f, fwMemoSolve f [] [0] [0] = none := by
  intro f
  induction f with
  | zero => rfl
  | succ f ih => simp [fwMemoSolve, ih]

/-! Counting identities used by the lower-bound claims. -/

theorem sum_map_add_split (l : List Nat) (f h : Nat → Nat) :
    (l.map (fun x => f x + h x)).sum = (l.map f).sum + (l.map h).sum := by
  induction l with
  | nil => simp
  | cons a t ih => simp [ih]; omega

theorem sum_counts_cover {urs : List Nat} (hnd : urs.Nodup) :
    ∀ {L : List Nat}, (∀ y ∈ L, y ∈ urs) → (urs.map (fun r => L.count r)).sum = L.length := by
  intro L
  induction L with
  | nil => intro _; simp
  | cons a t ih =>
    intro hcov
    have ha : a ∈ urs := hcov a (List.mem_cons_self a t)
    have ht : ∀ y ∈ t, y ∈ urs := fun y hy => hcov y (List.mem_cons_of_mem a hy)
    have hmap : urs.map (fun r => (a :: t).count r)
        = urs.map (fun r => t.count r + if r = a then 1 else 0) := by
      refine List.map_congr_left ?_
      intro r _
      rw [List.count_cons]
      rcases eq_or_ne r a with rfl | hra
      · simp
      · simp [beq_iff_eq, hra, Ne.symm hra]
    rw [hmap, sum_map_add_split, ih ht, sum_map_ite_eq hnd ha 1]
    simp

theorem sum_countsOf (l : List Nat) : (countsOf l).sum = l.length := by
  unfold countsOf
  exact sum_counts_cover (nodup_uniqueSorted l) (fun y hy => mem_uniqueSorted.mpr hy)

theorem length_partOf {M : Nat → Nat → Nat} {g : Nat} {ws : List Nat} {r : Nat} :
    (partOf M g ws r).length = (resultsOf M g ws).count r := by
  induction ws with
  | nil => rfl
  | cons w t ih =>
    simp only [partOf, resultsOf, List.filter_cons, List.map_cons, List.count_cons] at *
    by_cases h : M g w = r
    · simp [h, ih]
    · have h' : ¬ r = M g w := fun e => h e.symm
      simp [h, h', ih]

theorem zero_mem_resultsOf {M : Nat → Nat → Nat} {g : Nat} {ws : List Nat}
    (hM : MValid M) : 0 ∈ resultsOf M g ws ↔ g ∈ ws := by
  unfold resultsOf
  constructor
  · intro h
    rcases List.mem_map.mp h with ⟨w, hw, hw0⟩
    have := (hM g w).mp hw0
    exact this ▸ hw
  · intro h
    exact List.mem_map.mpr ⟨g, h, (hM g g).mpr rfl⟩

theorem count_zero_resultsOf {M : Nat → Nat → Nat} {g : Nat} {ws : List Nat}
    (hM : MValid M) (hnd : ws.Nodup) :
    (resultsOf M g ws).count 0 = if g ∈ ws then 1 else 0 := by
  induction ws with
  | nil => rfl
  | cons w t ih =>
    have hnd' : t.Nodup := (List.nodup_cons.mp hnd).2
    have hw : w ∉ t := (List.nodup_cons.mp hnd).1
    simp only [resultsOf, List.map_cons, List.count_cons] at *
    by_cases h : M g w = 0
    · have hgw : g = w := (hM g w).mp h
      subst hgw
      have hnotin : g ∉ t := hw
      rw [ih hnd']
      simp [h, hnotin]
    · have hgw : g ≠ w := fun e => h ((hM g w).mpr e)
      rw [ih hnd']
      have hne : ¬ ((0 : Nat) = M g w) := fun e => h e.symm
      by_cases hmem : g ∈ t
      · simp [hmem, hne, h, List.mem_cons]
      · have hnn : g ∉ w :: t := by
          simp [List.mem_cons, hgw, hmem]
        simp [hmem, hne, h, hnn]

theorem sum_map_split_zero (f : Nat → Int) (l : List Nat) :
    (l.map f).sum = ((l.filter (fun r => decide (r ≠ 0))).map f).sum
      + ((l.filter (fun r => decide (r = 0))).map f).sum := by
  induction l with
  | nil => simp
  | cons a t ih =>
    by_cases h : a = 0
    · subst h
      simp only [List.filter_cons, List.map_cons, List.sum_cons, ih]
      simp
      ring
    · simp only [List.filter_cons, List.map_cons, List.sum_cons, ih]
      simp [h]
      ring

theorem length_split_zero (l : List Nat) :
    l.length = (l.filter (fun r => decide (r ≠ 0))).length
      + (l.filter (fun r => decide (r = 0))).length := by
  induction l with
  | nil => simp
  | cons a t ih =>
    by_cases h : a = 0
    · subst h
      simp only [List.filter_cons, List.length_cons, ih]
      simp
      omega
    · simp only [List.filter_cons, List.length_cons, ih]
      simp [h]
      omega

theorem filter_zero_nodup {l : List Nat} (hnd : l.Nodup) :
    l.filter (fun r => decide (r = 0)) = if 0 ∈ l then [0] else [] := by
  induction l with
  | nil => simp
  | cons a t ih =>
    rcases List.nodup_cons.mp hnd with ⟨ha, ht⟩
    by_cases h : a = 0
    · subst h
      have hz : t.filter (fun r => decide (r = 0)) = [] := by
        rw [ih ht, if_neg ha]
      simp [List.filter_cons, hz]
    · have hmem : ((0 : Nat) ∈ a :: t) ↔ ((0 : Nat) ∈ t) := by
        simp [List.mem_cons]
        intro e
        exact absurd e.symm h
      rw [List.filter_cons, if_neg (by simpa using h), ih ht]
      by_cases h0 : (0 : Nat) ∈ t
      · rw [if_pos h0, if_pos (hmem.mpr h0)]
      · rw [if_neg h0, if_neg (fun hh => h0 (hmem.mp hh))]

theorem sum_parts_all (M : Nat → Nat → Nat) (g : Nat) (ws : List Nat) :
    ((uniqueSorted (resultsOf M g ws)).map
      (fun r => ((partOf M g ws r).length : Int))).sum = (ws.length : Int) := by
  have hnat : ((uniqueSorted (resultsOf M g ws)).map
      (fun r => (partOf M g ws r).length)).sum = ws.length := by
    have : (uniqueSorted (resultsOf M g ws)).map (fun r => (partOf M g ws r).length)
        = (uniqueSorted (resultsOf M g ws)).map (fun r => (resultsOf M g ws).count r) := by
      refine List.map_congr_left ?_
      intro r _
      exact length_partOf
    rw [this]
    have := sum_counts_cover (nodup_uniqueSorted (resultsOf M g ws))
      (fun y hy => mem_uniqueSorted.mpr hy)
    rw [this]
    simp [resultsOf]
  have h2 : ((uniqueSorted (resultsOf M g ws)).map
      (fun r => ((partOf M g ws r).length : Int))).sum
      = (((uniqueSorted (resultsOf M g ws)).map
          (fun r => (partOf M g ws r).length)).map (fun n : Nat => (n : Int))).sum := by
    rw [List.map_map]
    rfl
  rw [h2, ← Nat.cast_list_sum, hnat]

theorem sum_nonzero_parts {M : Nat → Nat → Nat} {g : Nat} {ws : List Nat}
    (hM : MValid M) (hnd : ws.Nodup) :
    ((nonzeroResults M g ws).map (fun r => ((partOf M g ws r).length : Int))).sum
      = (ws.length : Int) - (if g ∈ ws then 1 else 0) := by
  have hall := sum_parts_all M g ws
  have hsplit := sum_map_split_zero (fun r => ((partOf M g ws r).length : Int))
    (uniqueSorted (resultsOf M g ws))
  have hzero : (((uniqueSorted (resultsOf M g ws)).filter (fun r => decide (r = 0))).map
      (fun r => ((partOf M g ws r).length : Int))).sum = (if g ∈ ws then 1 else 0) := by
    rw [filter_zero_nodup (nodup_uniqueSorted _)]
    by_cases h : (0 : Nat) ∈ uniqueSorted (resultsOf M g ws)
    · have hg : g ∈ ws := (zero_mem_resultsOf hM).mp (mem_uniqueSorted.mp h)
      rw [if_pos h, if_pos hg]
      simp only [List.map_cons, List.map_nil, List.sum_cons, List.sum_nil, add_zero]
      rw [length_partOf, count_zero_resultsOf hM hnd, if_pos hg]
      rfl
    · have hg : g ∉ ws := fun hgw => h (mem_uniqueSorted.mpr ((zero_mem_resultsOf hM).mpr hgw))
      rw [if_neg h, if_neg hg]
      simp
  unfold nonzeroResults
  omega

theorem length_counts_split {M : Nat → Nat → Nat} {g : Nat} {ws : List Nat}
    (hM : MValid M) (hnd : ws.Nodup) :
    ((countsOf (resultsOf M g ws)).length : Int)
      = ((nonzeroResults M g ws).length : Int) + (if g ∈ ws then 1 else 0) := by
  have hlen : (countsOf (resultsOf M g ws)).length = (uniqueSorted (resultsOf M g ws)).length := by
    unfold countsOf
    simp
  have hsplit := length_split_zero (uniqueSorted (resultsOf M g ws))
  have hzero : ((uniqueSorted (resultsOf M g ws)).filter (fun r => decide (r = 0))).length
      = if g ∈ ws then 1 else 0 := by
    rw [filter_zero_nodup (nodup_uniqueSorted _)]
    by_cases h : (0 : Nat) ∈ uniqueSorted (resultsOf M g ws)
    · have hg : g ∈ ws := (zero_mem_resultsOf hM).mp (mem_uniqueSorted.mp h)
      rw [if_pos h, if_pos hg]
      rfl
    · have hg : g ∉ ws := fun hgw => h (mem_uniqueSorted.mpr ((zero_mem_resultsOf hM).mpr hgw))
      rw [if_neg h, if_neg hg]
      rfl
  unfold nonzeroResults
  by_cases hg : g ∈ ws <;> simp only [hg, if_true, if_false] at hzero ⊢ <;> omega

theorem sum_map_two_sub_one (l : List Nat) (f : Nat → Int) :
    (l.map (fun r => 2 * f r - 1)).sum = 2 * (l.map f).sum - (l.length : Int) := by
  induction l with
  | nil => simp
  | cons a t ih =>
    simp only [List.map_cons, List.sum_cons, List.length_cons, ih]
    push_cast
    ring

theorem length_le_sum_of_one_le {l : List Nat} {f : Nat → Int}
    (h : ∀ x ∈ l, 1 ≤ f x) : (l.length : Int) ≤ (l.map f).sum := by
  induction l with
  | nil => simp
  | cons a t ih =>
    simp only [List.map_cons, List.sum_cons, List.length_cons]
    have h1 := h a (List.mem_cons_self a t)
    have h2 := ih (fun x hx => h x (List.mem_cons_of_mem a hx))
    push_cast
    omega

/-- The code's cheap bound equals `n` plus the sum of `2c - 1` over the
non-exact-match partitions, the provable per-partition minimum. -/
theorem min_possible_cost_eq {M : Nat → Nat → Nat} {g : Nat} {ws : List Nat}
    (hM : MValid M) (hnd : ws.Nodup) :
    minPossibleCost M g ws = (ws.length : Int)
      + ((nonzeroResults M g ws).map
          (fun r => 2 * ((partOf M g ws r).length : Int) - 1)).sum := by
  unfold minPossibleCost
  rw [sum_countsOf]
  have hres : (resultsOf M g ws).length = ws.length := by simp [resultsOf]
  rw [hres]
  rw [sum_map_two_sub_one (nonzeroResults M g ws) (fun r => ((partOf M g ws r).length : Int))]
  rw [sum_nonzero_parts hM hnd, length_counts_split hM hnd]
  by_cases hg : g ∈ ws <;> simp only [hg, if_true, if_false] <;> ring

/-! Spec-side cost semantics: which total costs are achievable at all. -/

mutual
/-- Modelled from the spec: `Achieves M ws gw c` holds when some strategy,
guessing only words from the current guess set and recursing on the result
partitions exactly as the Cost model of the spec describes, identifies every
word of `ws` with total guess count `c = |ws| + sum of partition costs`. -/
inductive Achieves (M : Nat → Nat → Nat) : List Nat → List Nat → Int → Prop where
  | step {ws gw : List Nat} {g : Nat} {cs : List Int} :
      g ∈ gw →
      AchievesList M g ws gw (nonzeroResults M g ws) cs →
      Achieves M ws gw ((ws.length : Int) + cs.sum)

/-- Pointwise achievability for a list of result partitions: `cs` lists, for
each result code of `rs`, an achievable total cost of the corresponding
sub-problem. -/
inductive AchievesList (M : Nat → Nat → Nat) :
    Nat → List Nat → List Nat → List Nat → List Int → Prop where
  | nil {g : Nat} {ws gw : List Nat} : AchievesList M g ws gw [] []
  | cons {g : Nat} {ws gw : List Nat} {r : Nat} {c : Int} {rs : List Nat} {cs : List Int} :
      Achieves M (partOf M g ws r) (partOf M g gw r) c →
      AchievesList M g ws gw rs cs →
      AchievesList M g ws gw (r :: rs) (c :: cs)
end

/-- Simultaneous induction principle for `Achieves` and `AchievesList`,
packaged with explicit motives. -/
theorem achieves_mutual_ind (M : Nat → Nat → Nat)
    (P : List Nat → List Nat → Int → Prop)
    (Q : Nat → List Nat → List Nat → List Nat → List Int → Prop)
    (hstep : ∀ ws gw g cs, g ∈ gw → AchievesList M g ws gw (nonzeroResults M g ws) cs →
        Q g ws gw (nonzeroResults M g ws) cs → P ws gw ((ws.length : Int) + cs.sum))
    (hnil : ∀ g ws gw, Q g ws gw [] [])
    (hcons : ∀ g ws gw r c rs cs,
        Achieves M (partOf M g ws r) (partOf M g gw r) c →
        AchievesList M g ws gw rs cs →
        P (partOf M g ws r) (partOf M g gw r) c →
        Q g ws gw rs cs → Q g ws gw (r :: rs) (c :: cs)) :
    (∀ ws gw c, Achieves M ws gw c → P ws gw c) ∧
    (∀ g ws gw rs cs, AchievesList M g ws gw rs cs → Q g ws gw rs cs) := by
  constructor
  · intro ws gw c h
    exact @Achieves.rec M (fun ws gw c _ => P ws gw c) (fun g ws gw rs cs _ => Q g ws gw rs cs)
      (fun hg hl ih => hstep _ _ _ _ hg hl ih)
      (hnil _ _ _)
      (fun h1 h2 ih1 ih2 => hcons _ _ _ _ _ _ _ h1 h2 ih1 ih2)
      ws gw c h
  · intro g ws gw rs cs h
    exact @AchievesList.rec M (fun ws gw c _ => P ws gw c) (fun g ws gw rs cs _ => Q g ws gw rs cs)
      (fun hg hl ih => hstep _ _ _ _ hg hl ih)
      (hnil _ _ _)
      (fun h1 h2 ih1 ih2 => hcons _ _ _ _ _ _ _ h1 h2 ih1 ih2)
      g ws gw rs cs h

/-- Lower bound: every achievable total cost for `n` candidates is at least
`2n - 1`, and over a list of partitions the per-partition bounds add up. -/
theorem achieves_lower_bound (M : Nat → Nat → Nat) (hM : MValid M) :
    (∀ ws gw c, Achieves M ws gw c → ws.Nodup → 2 * (ws.length : Int) - 1 ≤ c) ∧
    (∀ g ws gw rs cs, AchievesList M g ws gw rs cs → ws.Nodup →
        (∀ r ∈ rs, partOf M g ws r ≠ []) →
        (rs.map (fun r => 2 * ((partOf M g ws r).length : Int) - 1)).sum ≤ cs.sum) := by
  refine achieves_mutual_ind M
    (fun ws gw c => ws.Nodup → 2 * (ws.length : Int) - 1 ≤ c)
    (fun g ws gw rs cs => ws.Nodup → (∀ r ∈ rs, partOf M g ws r ≠ []) →
        (rs.map (fun r => 2 * ((partOf M g ws r).length : Int) - 1)).sum ≤ cs.sum)
    ?_ ?_ ?_
  · intro ws gw g cs _ _ ih hnd
    have hne : ∀ r ∈ nonzeroResults M g ws, partOf M g ws r ≠ [] := by
      intro r hr
      exact partOf_ne_nil (List.mem_of_mem_filter hr)
    have hsum := ih hnd hne
    have heq := @min_possible_cost_eq M g ws hM hnd
    have h1 : ((nonzeroResults M g ws).map
        (fun r => 2 * ((partOf M g ws r).length : Int) - 1)).sum
        = 2 * ((nonzeroResults M g ws).map
            (fun r => ((partOf M g ws r).length : Int))).sum
          - ((nonzeroResults M g ws).length : Int) :=
      sum_map_two_sub_one _ _
    have h2 := @sum_nonzero_parts M g ws hM hnd
    have h3 : ((nonzeroResults M g ws).length : Int)
        ≤ ((nonzeroResults M g ws).map (fun r => ((partOf M g ws r).length : Int))).sum := by
      refine length_le_sum_of_one_le ?_
      intro r hr
      have := hne r hr
      have hpos : 0 < (partOf M g ws r).length := List.length_pos.mpr this
      omega
    by_cases hg : g ∈ ws <;> simp only [hg, if_true, if_false] at h2 <;> omega
  · intro g ws gw _ _
    simp
  · intro g ws gw r c rs cs _ _ ihp ihq hnd hne
    have hc : 2 * ((partOf M g ws r).length : Int) - 1 ≤ c :=
      ihp (hnd.filter _)
    have hrest := ihq hnd (fun r hr => hne r (List.mem_cons_of_mem _ hr))
    simp only [List.map_cons, List.sum_cons]
    omega

/-- Claim C6: for every candidate set and guess `g`, the code's quantity
`n + 2*sum(counts) - len(counts) - (g in words)` is a true lower bound on the
total cost achievable when `g` is guessed first, so skipping a guess whose
bound is at least the current best cost never discards a strictly better
guess. -/
theorem min_possible_cost_admissible (M : Nat → Nat → Nat) (g : Nat)
    (ws gw : List Nat) (cs : List Int) (best : Int)
    (hM : MValid M) (hnd : ws.Nodup)
    (hach : AchievesList M g ws gw (nonzeroResults M g ws) cs) :
    minPossibleCost M g ws ≤ (ws.length : Int) + cs.sum ∧
    (best ≤ minPossibleCost M g ws → ¬ ((ws.length : Int) + cs.sum < best)) := by
  have hlb := (achieves_lower_bound M hM).2 g ws gw (nonzeroResults M g ws) cs hach hnd
    (fun r hr => partOf_ne_nil (List.mem_of_mem_filter hr))
  have heq := @min_possible_cost_eq M g ws hM hnd
  constructor
  · omega
  · intro hbest hlt
    omega

theorem cexM_valid : MValid cexM := by
  intro g w
  by_cases h : g = w
  · simp [cexM, h]
  · simp [cexM, h]

/-- Witness for C6 at a concrete input: guessing word 0 against the candidate
set `[0, 1]` splits off the partition `[1]`, solvable at cost 1; the bound is
respected. -/
theorem min_possible_cost_admissible_witness :
    minPossibleCost cexM 0 [0, 1] ≤ (([0, 1] : List Nat).length : Int) + ([1] : List Int).sum ∧
    ((5 : Int) ≤ minPossibleCost cexM 0 [0, 1] →
      ¬ ((([0, 1] : List Nat).length : Int) + ([1] : List Int).sum < 5)) := by
  have hz : nonzeroResults cexM 1 [1] = [] := by decide
  have hach1 : Achieves cexM [1] [1] 1 := by
    have h0 : AchievesList cexM 1 [1] [1] (nonzeroResults cexM 1 [1]) [] := by
      rw [hz]
      exact .nil
    simpa using Achieves.step (List.mem_cons_self 1 []) h0
  have hp : partOf cexM 0 [0, 1] 1 = [1] := by decide
  have hnz : nonzeroResults cexM 0 [0, 1] = [1] := by decide
  have hach : AchievesList cexM 0 [0, 1] [0, 1] (nonzeroResults cexM 0 [0, 1]) [1] := by
    rw [hnz]
    refine .cons ?_ .nil
    rw [hp]
    exact hach1
  exact min_possible_cost_admissible cexM 0 [0, 1] [0, 1] [1] 5 cexM_valid (by decide) hach

/-! Claim C5: assembly of the returned decision tree. -/

/-- Value stored in the decision tree: ordinary entries hold the
`(next_guess, cost)` pair; `FastWordle.solve` stores the winning guess alone
at the root. -/
inductive TreeVal where
  | pair : Option Nat → Int → TreeVal
  | guessOnly : Nat → TreeVal
deriving DecidableEq

/-- Inner loop of the top-level `solve` over one guess's result codes: records
a tree entry for every explored `(guess, result)` history, accumulates the
recursive cost (calling `solve_cost` at depth 1 with `alpha = min_cost - cost`),
and breaks once the accumulated cost reaches `min_cost`. -/
def topResLoop (M : Nat → Nat → Nat) (ws gw : List Nat) (g : Nat) (mc : Int) :
    List Nat → Int → List (List Nat × TreeVal) →
    Except Err (Int × List (List Nat × TreeVal))
  | [], cost, tree => .ok (cost, tree)
  | r :: rest, cost, tree =>
    if r = 0 then topResLoop M ws gw g mc rest cost tree
    else
      match solveCost M (partOf M g ws r) (partOf M g gw r) (mc - cost) 1 with
      | .error e => .error e
      | .ok pr =>
        let tree1 := ([g, r], TreeVal.pair pr.1 pr.2) :: tree
        let cost1 := cost + pr.2
        if mc ≤ cost1 then .ok (cost1, tree1)
        else topResLoop M ws gw g mc rest cost1 tree1

/-- Top-level loop of `solve` over the first-guess candidates, tracking the
best `(guess, min_cost)` pair and the accumulated tree. -/
def topGuessLoop (M : Nat → Nat → Nat) (ws gw : List Nat) :
    List Nat → Option Nat → Int → List (List Nat × TreeVal) →
    Except Err (Option Nat × Int × List (List Nat × TreeVal))
  | [], mg, mc, tree => .ok (mg, mc, tree)
  | g :: rest, mg, mc, tree =>
    match topResLoop M ws gw g mc
        (byCount (resultsOf M g ws) (uniqueSorted (resultsOf M g ws)))
        (ws.length : Int) tree with
    | .error e => .error e
    | .ok ct =>
      if ct.1 < mc then topGuessLoop M ws gw rest (some g) ct.1 ct.2
      else topGuessLoop M ws gw rest mg mc ct.2

/-- Embedding of `HardWordle.solve`: runs the loop with initial
`min_cost = 4 * len(words)`, then keeps only the accumulated entries whose
history starts with the winning guess and adds the root entry
`() -> (guess, min_cost)`.  Returns `none` when a recursive call fails or when
no guess was found (`guess_dict[guess]` with `guess = None` raises). -/
def hwSolve (M : Nat → Nat → Nat) (ws gw ggl : List Nat) :
    Option (List (List Nat × TreeVal)) :=
  match topGuessLoop M ws gw ggl none (4 * (ws.length : Int)) [] with
  | .error _ => none
  | .ok (none, _, _) => none
  | .ok (some g, mc, tree) =>
    some (([], TreeVal.pair (some g) mc)
      :: tree.filter (fun e => decide (e.1.head? = some g)))

/-- Embedding of `FastWordle.solve` (with the wall-clock timeout never
firing): the identical search loop, but the root entry stores the winning
guess alone, without the cost. -/
def fwSolve (M : Nat → Nat → Nat) (ws gw ggl : List Nat) :
    Option (List (List Nat × TreeVal)) :=
  match topGuessLoop M ws gw ggl none (4 * (ws.length : Int)) [] with
  | .error _ => none
  | .ok (none, _, _) => none
  | .ok (some g, _, tree) =>
    some (([], TreeVal.guessOnly g)
      :: tree.filter (fun e => decide (e.1.head? = some g)))

theorem lookup_filter_key (t : List (List Nat × TreeVal)) (g : Nat) (k : List Nat) :
    List.lookup k (t.filter (fun e => decide (e.1.head? = some g)))
      = if k.head? = some g then List.lookup k t else none := by
  induction t with
  | nil => simp
  | cons e t ih =>
    rcases e with ⟨a, v⟩
    by_cases hp : a.head? = some g
    · rw [List.filter_cons, if_pos (by simpa using hp)]
      by_cases hk : k = a
      · subst hk
        rw [List.lookup_cons, List.lookup_cons]
        simp [hp]
      · have hbeq : (k == a) = false := by simpa using hk
        rw [List.lookup_cons, List.lookup_cons]
        simp only [hbeq]
        exact ih
    · rw [List.filter_cons, if_neg (by simpa using hp)]
      by_cases hk : k = a
      · subst hk
        rw [if_neg hp, ih, if_neg hp]
      · have hbeq : (k == a) = false := by simpa using hk
        rw [List.lookup_cons]
        simp only [hbeq]
        exact ih

/-- Counterexample to claim C5 as stated: the claim covers both top-level
solvers, but on a concrete instance `FastWordle.solve` maps the empty history
to the bare winning guess, not to the pair (winning guess, minimum cost). -/
theorem solve_tree_assembly_cex :
    fwSolve cexM [0] [0] [0] = some [([], TreeVal.guessOnly 0)] ∧
    TreeVal.guessOnly 0 ≠ TreeVal.pair (some 0) 1 := by
  constructor
  · decide
  · intro h
    cases h

/-- Amended claim C5: writing `acc` for the tree accumulated by the top-level
loop and `(g, mc)` for the winning guess and minimum cost, `HardWordle.solve`
returns exactly the entries of `acc` whose history begins with `g`, plus the
root entry mapping the empty history to the pair `(g, mc)`;  `FastWordle.solve`
returns the same filtered entries but maps the empty history to the bare
winning guess `g` instead of the pair. -/
theorem solve_tree_assembly (M : Nat → Nat → Nat) (ws gw ggl : List Nat)
    (g : Nat) (mc : Int) (acc : List (List Nat × TreeVal))
    (h1 : topGuessLoop M ws gw ggl none (4 * (ws.length : Int)) [] = .ok (some g, mc, acc)) :
    (∃ t, hwSolve M ws gw ggl = some t ∧ ∀ hist, List.lookup hist t =
        if hist = [] then some (TreeVal.pair (some g) mc)
        else if hist.head? = some g then List.lookup hist acc else none) ∧
    (∃ t2, fwSolve M ws gw ggl = some t2 ∧
        List.lookup [] t2 = some (TreeVal.guessOnly g) ∧
        ∀ hist, hist ≠ [] → List.lookup hist t2 =
          (if hist.head? = some g then List.lookup hist acc else none)) := by
  constructor
  · refine ⟨_, by unfold hwSolve; rw [h1], ?_⟩
    intro hist
    by_cases h : hist = []
    · subst h
      simp [List.lookup]
    · rw [if_neg h]
      have hbeq : (hist == ([] : List Nat)) = false := by simpa using h
      rw [List.lookup_cons]
      simp only [hbeq]
      exact lookup_filter_key acc g hist
  · refine ⟨_, by unfold fwSolve; rw [h1], ?_, ?_⟩
    · simp [List.lookup]
    · intro hist h
      have hbeq : (hist == ([] : List Nat)) = false := by simpa using h
      rw [List.lookup_cons]
      simp only [hbeq]
      exact lookup_filter_key acc g hist

/-- Witness for the amended C5 at a concrete input. -/
theorem solve_tree_assembly_witness :
    (∃ t, hwSolve cexM [0] [0] [0] = some t ∧ ∀ hist, List.lookup hist t =
        if hist = [] then some (TreeVal.pair (some 0) 1)
        else if hist.head? = some 0 then List.lookup hist [] else none) ∧
    (∃ t2, fwSolve cexM [0] [0] [0] = some t2 ∧
        List.lookup [] t2 = some (TreeVal.guessOnly 0) ∧
        ∀ hist, hist ≠ [] → List.lookup hist t2 =
          (if hist.head? = some 0 then List.lookup hist ([] : List (List Nat × TreeVal)) else none)) :=
  solve_tree_assembly cexM [0] [0] [0] 0 1 [] (by decide)

/-! Depth-aware achievability, the reference semantics for claim C1.  A
strategy may only guess while the depth is within the 6-guess budget
(`d <= 5`); every unresolved partition is played one level deeper. -/

mutual
/-- Modelled from the spec: `AchievesD M ws gw d c` holds when a strategy
starting at depth `d` (guesses at depths `d, d+1, ..., 5` are allowed),
guessing only from the current guess set, identifies every word of `ws` with
total guess count `c`. -/
inductive AchievesD (M : Nat → Nat → Nat) : List Nat → List Nat → Nat → Int → Prop where
  | step {ws gw : List Nat} {d : Nat} {g : Nat} {cs : List Int} :
      d ≤ 5 → g ∈ gw →
      AchievesDList M g ws gw (d + 1) (nonzeroResults M g ws) cs →
      AchievesD M ws gw d ((ws.length : Int) + cs.sum)

/-- Pointwise depth-aware achievability for a list of result partitions. -/
inductive AchievesDList (M : Nat → Nat → Nat) :
    Nat → List Nat → List Nat → Nat → List Nat → List Int → Prop where
  | nil {g : Nat} {ws gw : List Nat} {d : Nat} : AchievesDList M g ws gw d [] []
  | cons {g : Nat} {ws gw : List Nat} {d : Nat} {r : Nat} {c : Int}
      {rs : List Nat} {cs : List Int} :
      AchievesD M (partOf M g ws r) (partOf M g gw r) d c →
      AchievesDList M g ws gw d rs cs →
      AchievesDList M g ws gw d (r :: rs) (c :: cs)
end

/-- Simultaneous induction principle for `AchievesD` and `AchievesDList`. -/
theorem achievesD_mutual_ind (M : Nat → Nat → Nat)
    (P : List Nat → List Nat → Nat → Int → Prop)
    (Q : Nat → List Nat → List Nat → Nat → List Nat → List Int → Prop)
    (hstep : ∀ ws gw d g cs, d ≤ 5 → g ∈ gw →
        AchievesDList M g ws gw (d + 1) (nonzeroResults M g ws) cs →
        Q g ws gw (d + 1) (nonzeroResults M g ws) cs →
        P ws gw d ((ws.length : Int) + cs.sum))
    (hnil : ∀ g ws gw d, Q g ws gw d [] [])
    (hcons : ∀ g ws gw d r c rs cs,
        AchievesD M (partOf M g ws r) (partOf M g gw r) d c →
        AchievesDList M g ws gw d rs cs →
        P (partOf M g ws r) (partOf M g gw r) d c →
        Q g ws gw d rs cs → Q g ws gw d (r :: rs) (c :: cs)) :
    (∀ ws gw d c, AchievesD M ws gw d c → P ws gw d c) ∧
    (∀ g ws gw d rs cs, AchievesDList M g ws gw d rs cs → Q g ws gw d rs cs) := by
  constructor
  · intro ws gw d c h
    exact @AchievesD.rec M (fun ws gw d c _ => P ws gw d c)
      (fun g ws gw d rs cs _ => Q g ws gw d rs cs)
      (fun hd hg hl ih => hstep _ _ _ _ _ hd hg hl ih)
      (hnil _ _ _ _)
      (fun h1 h2 ih1 ih2 => hcons _ _ _ _ _ _ _ _ h1 h2 ih1 ih2)
      ws gw d c h
  · intro g ws gw d rs cs h
    exact @AchievesDList.rec M (fun ws gw d c _ => P ws gw d c)
      (fun g ws gw d rs cs _ => Q g ws gw d rs cs)
      (fun hd hg hl ih => hstep _ _ _ _ _ hd hg hl ih)
      (hnil _ _ _ _)
      (fun h1 h2 ih1 ih2 => hcons _ _ _ _ _ _ _ _ h1 h2 ih1 ih2)
      g ws gw d rs cs h

/-- Forgetting the depth constraint turns a depth-aware strategy into a plain
one. -/
theorem achievesD_to_achieves (M : Nat → Nat → Nat) :
    (∀ ws gw d c, AchievesD M ws gw d c → Achieves M ws gw c) ∧
    (∀ g ws gw d rs cs, AchievesDList M g ws gw d rs cs →
      AchievesList M g ws gw rs cs) := by
  refine achievesD_mutual_ind M
    (fun ws gw d c => Achieves M ws gw c)
    (fun g ws gw d rs cs => AchievesList M g ws gw rs cs) ?_ ?_ ?_
  · intro ws gw d g cs _ hg _ ih
    exact .step hg ih
  · intro g ws gw d
    exact .nil
  · intro g ws gw d r c rs cs _ _ ih1 ih2
    exact .cons ih1 ih2

/-- Achievable costs are nonnegative. -/
theorem achievesD_nonneg (M : Nat → Nat → Nat) :
    (∀ ws gw d c, AchievesD M ws gw d c → 0 ≤ c) ∧
    (∀ g ws gw d rs cs, AchievesDList M g ws gw d rs cs → 0 ≤ cs.sum) := by
  refine achievesD_mutual_ind M
    (fun ws gw d c => 0 ≤ c)
    (fun g ws gw d rs cs => 0 ≤ cs.sum) ?_ ?_ ?_
  · intro ws gw d g cs _ _ _ ih
    have : (0 : Int) ≤ ws.length := by positivity
    omega
  · intro g ws gw d
    simp
  · intro g ws gw d r c rs cs _ _ ih1 ih2
    simp only [List.sum_cons]
    omega

/-- An achievable cost is at least the number of candidates. -/
theorem achievesD_ge_len {M : Nat → Nat → Nat} {ws gw : List Nat} {d : Nat} {c : Int}
    (h : AchievesD M ws gw d c) : (ws.length : Int) ≤ c := by
  cases h with
  | step hd hg hl =>
    have := (achievesD_nonneg M).2 _ _ _ _ _ _ hl
    omega

/-- A strategy needs its starting depth within the budget. -/
theorem achievesD_le_five {M : Nat → Nat → Nat} {ws gw : List Nat} {d : Nat} {c : Int}
    (h : AchievesD M ws gw d c) : d ≤ 5 := by
  cases h with
  | step hd _ _ => exact hd

/-- Weakening: enlarging the guess set preserves achievability. -/
theorem achievesD_weaken (M : Nat → Nat → Nat) :
    (∀ ws gw d c, AchievesD M ws gw d c →
      ∀ gw', (∀ x ∈ gw, x ∈ gw') → AchievesD M ws gw' d c) ∧
    (∀ g ws gw d rs cs, AchievesDList M g ws gw d rs cs →
      ∀ gw', (∀ x ∈ gw, x ∈ gw') → AchievesDList M g ws gw' d rs cs) := by
  refine achievesD_mutual_ind M
    (fun ws gw d c => ∀ gw', (∀ x ∈ gw, x ∈ gw') → AchievesD M ws gw' d c)
    (fun g ws gw d rs cs => ∀ gw', (∀ x ∈ gw, x ∈ gw') → AchievesDList M g ws gw' d rs cs)
    ?_ ?_ ?_
  · intro ws gw d g cs hd hg _ ih gw' hsub
    exact .step hd (hsub g hg) (ih gw' hsub)
  · intro g ws gw d gw' _
    exact .nil
  · intro g ws gw d r c rs cs _ _ ih1 ih2 gw' hsub
    refine .cons (ih1 (partOf M g gw' r) ?_) (ih2 gw' hsub)
    intro x hx
    rcases mem_partOf.mp hx with ⟨hx1, hx2⟩
    exact mem_partOf.mpr ⟨hsub x hx1, hx2⟩

/-- Relaxing the depth: a strategy from a deeper starting point also works
from any shallower one. -/
theorem achievesD_relax (M : Nat → Nat → Nat) :
    (∀ ws gw d c, AchievesD M ws gw d c →
      ∀ d', d' ≤ d → AchievesD M ws gw d' c) ∧
    (∀ g ws gw d rs cs, AchievesDList M g ws gw d rs cs →
      ∀ d', d' ≤ d → AchievesDList M g ws gw d' rs cs) := by
  refine achievesD_mutual_ind M
    (fun ws gw d c => ∀ d', d' ≤ d → AchievesD M ws gw d' c)
    (fun g ws gw d rs cs => ∀ d', d' ≤ d → AchievesDList M g ws gw d' rs cs)
    ?_ ?_ ?_
  · intro ws gw d g cs hd hg _ ih d' hd'
    exact .step (by omega) hg (ih (d' + 1) (by omega))
  · intro g ws gw d d' _
    exact .nil
  · intro g ws gw d r c rs cs _ _ ih1 ih2 d' hd'
    exact .cons (ih1 d' hd') (ih2 d' hd')

/-- Transport of a partition cost list along a permutation of the result
codes. -/
theorem achievesDList_perm {M : Nat → Nat → Nat} {g : Nat} {ws gw : List Nat} {d : Nat} :
    ∀ {rs rs' : List Nat}, rs.Perm rs' → ∀ {cs : List Int},
      AchievesDList M g ws gw d rs cs →
      ∃ cs', cs.Perm cs' ∧ AchievesDList M g ws gw d rs' cs' := by
  intro rs rs' hperm
  induction hperm with
  | nil =>
    intro cs h
    cases h
    exact ⟨[], .rfl, .nil⟩
  | cons a p ih =>
    intro cs h
    cases h with
    | cons hc hl =>
      rcases ih hl with ⟨cs', hp, hl'⟩
      exact ⟨_, hp.cons _, .cons hc hl'⟩
  | swap a b t =>
    intro cs h
    cases h with
    | cons hc1 h2 =>
      cases h2 with
      | cons hc2 hl =>
        exact ⟨_, List.Perm.swap _ _ _, .cons hc2 (.cons hc1 hl)⟩
  | trans p q ihp ihq =>
    intro cs h
    rcases ihp h with ⟨cs1, h1, hl1⟩
    rcases ihq hl1 with ⟨cs2, h2, hl2⟩
    exact ⟨cs2, h1.trans h2, hl2⟩

/-! Small facts feeding the main pruning invariant. -/

theorem no_achievesD_deep {M : Nat → Nat → Nat} {ws gw : List Nat} {t : Int}
    (hM : MValid M) (hnd : ws.Nodup) (hlen : 2 ≤ ws.length)
    (h : AchievesD M ws gw 5 t) : False := by
  cases h with
  | step hd hg hl =>
    rename_i g cs
    obtain ⟨w, hw, hwg⟩ : ∃ w ∈ ws, w ≠ g := by
      match ws, hnd, hlen with
      | a :: b :: t, hnd, _ =>
        by_cases ha : a = g
        · refine ⟨b, by simp, ?_⟩
          intro hb
          have hab : a ≠ b := by
            have := (List.nodup_cons.mp hnd).1
            simp only [List.mem_cons] at this
            tauto
          exact hab (ha.trans hb.symm)
        · exact ⟨a, by simp, ha⟩
    have hr : M g w ≠ 0 := fun h0 => hwg (((hM g w).mp h0).symm)
    have hmem : M g w ∈ nonzeroResults M g ws := by
      unfold nonzeroResults
      rw [List.mem_filter]
      exact ⟨mem_uniqueSorted.mpr (List.mem_map_of_mem (M g) hw), by simpa using hr⟩
    cases hnz : nonzeroResults M g ws with
    | nil => rw [hnz] at hmem; cases hmem
    | cons r rest =>
      rw [hnz] at hl
      cases hl with
      | cons hc _ => exact absurd (achievesD_le_five hc) (by omega)

theorem achievesD_singleton {M : Nat → Nat → Nat} {gw : List Nat} {d w : Nat}
    (hM : MValid M) (hw : w ∈ gw) (hd : d ≤ 5) : AchievesD M [w] gw d 1 := by
  have hres : resultsOf M w [w] = [0] := by simp [resultsOf, (hM w w).mpr rfl]
  have hnz : nonzeroResults M w [w] = [] := by
    unfold nonzeroResults
    rw [hres]
    decide
  have hlist : AchievesDList M w [w] gw (d + 1) (nonzeroResults M w [w]) [] := by
    rw [hnz]
    exact .nil
  simpa using AchievesD.step hd hw hlist

theorem uniqueSorted_pair_zero {r : Nat} (hr : r ≠ 0) : uniqueSorted [0, r] = [0, r] := by
  unfold uniqueSorted
  have hd : ([0, r] : List Nat).dedup = [0, r] := by
    rw [List.dedup_cons_of_not_mem (by simpa using (Ne.symm hr)),
      List.dedup_cons_of_not_mem (by simp), List.dedup_nil]
  rw [hd]
  simp [List.insertionSort, List.orderedInsert]

theorem achievesD_pair {M : Nat → Nat → Nat} {gw : List Nat} {d w b : Nat}
    (hM : MValid M) (hwb : w ≠ b) (hw : w ∈ gw) (hb : b ∈ gw) (hd : d ≤ 4) :
    AchievesD M [w, b] gw d 3 := by
  have hr0 : M w b ≠ 0 := fun h => hwb ((hM w b).mp h)
  have hres : resultsOf M w [w, b] = [0, M w b] := by
    simp [resultsOf, (hM w w).mpr rfl]
  have hnz : nonzeroResults M w [w, b] = [M w b] := by
    unfold nonzeroResults
    rw [hres, uniqueSorted_pair_zero hr0]
    simp [hr0]
  have hpart : partOf M w [w, b] (M w b) = [b] := by
    unfold partOf
    have h1 : ¬ M w w = M w b := by
      rw [(hM w w).mpr rfl]
      exact fun e => hr0 e.symm
    simp [List.filter_cons, h1]
  have hbsub : b ∈ partOf M w gw (M w b) := mem_partOf.mpr ⟨hb, rfl⟩
  have hsub : AchievesD M [b] (partOf M w gw (M w b)) (d + 1) 1 :=
    achievesD_singleton hM hbsub (by omega)
  have hlist : AchievesDList M w [w, b] gw (d + 1) (nonzeroResults M w [w, b]) [1] := by
    rw [hnz]
    refine .cons ?_ .nil
    rw [hpart]
    exact hsub
  have := AchievesD.step (by omega) hw hlist
  simpa using this

theorem min_possible_cost_ge {M : Nat → Nat → Nat} {g : Nat} {ws : List Nat}
    (hM : MValid M) (hnd : ws.Nodup) :
    2 * (ws.length : Int) - 1 ≤ minPossibleCost M g ws := by
  rw [min_possible_cost_eq hM hnd]
  have h1 := sum_map_two_sub_one (nonzeroResults M g ws)
    (fun r => ((partOf M g ws r).length : Int))
  have h2 := @sum_nonzero_parts M g ws hM hnd
  have h3 : ((nonzeroResults M g ws).length : Int)
      ≤ ((nonzeroResults M g ws).map (fun r => ((partOf M g ws r).length : Int))).sum := by
    refine length_le_sum_of_one_le ?_
    intro r hr
    have hne := partOf_ne_nil (List.mem_of_mem_filter hr)
    have hpos : 0 < (partOf M g ws r).length := List.length_pos.mpr hne
    omega
  by_cases hg : g ∈ ws <;> simp only [hg, if_true, if_false] at h2 <;> omega

theorem uniqueSorted_length_le (l : List Nat) : (uniqueSorted l).length ≤ l.length := by
  have h1 : (uniqueSorted l).length = l.dedup.length :=
    (List.perm_insertionSort _ l.dedup).length_eq
  have h2 : l.dedup.length ≤ l.length := (List.dedup_sublist l).length_le
  omega

theorem foldr_max_mem : ∀ (l : List Nat) (m : Nat), l.foldr max 0 = m → m ≠ 0 → m ∈ l := by
  intro l
  induction l with
  | nil =>
    intro m hm hm0
    simp at hm
    exact absurd hm.symm hm0
  | cons a t ih =>
    intro m hm hm0
    simp only [List.foldr_cons] at hm
    rcases max_choice a (t.foldr max 0) with h | h
    · rw [h] at hm
      exact hm ▸ List.mem_cons_self a t
    · rw [h] at hm
      exact List.mem_cons_of_mem a (ih m hm hm0)

theorem nodup_all_eq {l : List Nat} {r : Nat} (hnd : l.Nodup)
    (hall : ∀ x ∈ l, x = r) (hr : r ∈ l) : l = [r] := by
  cases l with
  | nil => cases hr
  | cons a t =>
    have ha : a = r := hall a (List.mem_cons_self a t)
    subst ha
    have ht : t = [] := by
      rw [List.eq_nil_iff_forall_not_mem]
      intro x hx
      have := hall x (List.mem_cons_of_mem a hx)
      subst this
      exact (List.nodup_cons.mp hnd).1 hx
    rw [ht]

/-- When the largest partition swallows every candidate, all result codes
coincide: the guess distinguishes nothing. -/
theorem results_const_of_max {M : Nat → Nat → Nat} {g : Nat} {ws : List Nat}
    (hfold : (countsOf (resultsOf M g ws)).foldr max 0 = ws.length)
    (hlen : 0 < ws.length) :
    ∃ r, (∀ x ∈ resultsOf M g ws, x = r) ∧ r ∈ resultsOf M g ws := by
  have hmem : ws.length ∈ countsOf (resultsOf M g ws) :=
    foldr_max_mem _ _ hfold (by omega)
  unfold countsOf at hmem
  rcases List.mem_map.mp hmem with ⟨r, hr, hcount⟩
  have hlenres : (resultsOf M g ws).length = ws.length := by
    simp [resultsOf]
  have hall : ∀ x ∈ resultsOf M g ws, r = x :=
    List.count_eq_length.mp (by rw [hcount, hlenres])
  exact ⟨r, fun x hx => (hall x hx).symm, mem_uniqueSorted.mp hr⟩

theorem nonzero_const {M : Nat → Nat → Nat} {g : Nat} {ws : List Nat} {r : Nat}
    (hall : ∀ x ∈ resultsOf M g ws, x = r) (hrmem : r ∈ resultsOf M g ws)
    (hr0 : r ≠ 0) : nonzeroResults M g ws = [r] := by
  unfold nonzeroResults
  have hurs : uniqueSorted (resultsOf M g ws) = [r] := by
    refine nodup_all_eq (nodup_uniqueSorted _) ?_ (mem_uniqueSorted.mpr hrmem)
    intro x hx
    exact hall x (mem_uniqueSorted.mp hx)
  rw [hurs]
  simp [hr0]

theorem partOf_const {M : Nat → Nat → Nat} {g : Nat} {ws : List Nat} {r : Nat}
    (hall : ∀ x ∈ resultsOf M g ws, x = r) : partOf M g ws r = ws := by
  unfold partOf
  refine List.filter_eq_self.mpr ?_
  intro w hw
  have := hall (M g w) (List.mem_map_of_mem (M g) hw)
  simpa using this

/-- The pruning contract of `solve_cost` (the amended claim C1), stated for an
arbitrary implementation of the recursive interface: on success the returned
cost is the true optimum when it beats `alpha`, is a lower bound on every
achievable cost, is at least `min alpha 1`, and in the main-loop regime the
returned guess is `None` exactly when nothing improves on `alpha`. -/
def SolveCostSpec (M : Nat → Nat → Nat)
    (s : List Nat → List Nat → Int → Nat → Except Err (Option Nat × Int)) : Prop :=
  ∀ ws gw alpha d mg mc, MValid M → ws.Nodup → (∀ x ∈ ws, x ∈ gw) → alpha ≤ 10000 →
    s ws gw alpha d = .ok (mg, mc) →
    (mc < alpha → AchievesD M ws gw d mc) ∧
    (∀ t, AchievesD M ws gw d t → mc ≤ t) ∧
    (min alpha 1 ≤ mc) ∧
    (3 ≤ ws.length → d ≤ 4 → (mg = none ↔ alpha ≤ mc))

/-- Invariant of the inner result loop: the accumulated cost never decreases,
`min out mc` is a lower bound on the true cost of the processed partitions,
and a final cost below `min_cost` is exactly achieved by some partition cost
list. -/
theorem resLoop_spec {M : Nat → Nat → Nat}
    {rec : List Nat → List Nat → Int → Nat → Except Err (Option Nat × Int)}
    (hrec : SolveCostSpec M rec) (hM : MValid M)
    {ws sgw : List Nat} {g : Nat} {d : Nat} {mc : Int}
    (hnd : ws.Nodup) (hsub : ∀ x ∈ ws, x ∈ sgw) (hmc : mc ≤ 10000) :
    ∀ (rs : List Nat) (cost0 : Int), 0 ≤ cost0 →
      ∀ {out : Int}, resLoop rec M ws sgw g d mc rs cost0 = .ok out →
      (cost0 ≤ out) ∧
      (∀ cs, AchievesDList M g ws sgw (d + 1) (rs.filter (fun r => decide (r ≠ 0))) cs →
        min out mc ≤ cost0 + cs.sum) ∧
      (out < mc → ∃ cs, AchievesDList M g ws sgw (d + 1)
          (rs.filter (fun r => decide (r ≠ 0))) cs ∧ out = cost0 + cs.sum) := by
  intro rs
  induction rs with
  | nil =>
    intro cost0 h0 out hres
    simp only [resLoop] at hres
    rw [Except.ok.injEq] at hres
    subst hres
    refine ⟨le_refl _, ?_, ?_⟩
    · intro cs hcs
      cases hcs
      simpa using min_le_left cost0 mc
    · intro _
      exact ⟨[], .nil, by simp⟩
  | cons r rest ih =>
    intro cost0 h0 out hres
    simp only [resLoop] at hres
    split at hres
    · rename_i hbrk
      rw [Except.ok.injEq] at hres
      subst hres
      refine ⟨le_refl _, ?_, ?_⟩
      · intro cs hcs
        have hnn := (achievesD_nonneg M).2 _ _ _ _ _ _ hcs
        have := min_le_right cost0 mc
        omega
      · intro hout
        omega
    · rename_i hbrk
      split at hres
      · rename_i hr0
        subst hr0
        have hfz : ((0 : Nat) :: rest).filter (fun r => decide (r ≠ 0))
            = rest.filter (fun r => decide (r ≠ 0)) := by
          simp
        rw [hfz]
        exact ih cost0 h0 hres
      · rename_i hr0
        cases hsc : rec (partOf M g ws r) (partOf M g sgw r) (mc - cost0) (d + 1) with
        | error e =>
          rw [hsc] at hres
          cases hres
        | ok pr =>
          rw [hsc] at hres
          have hsubpart : ∀ x ∈ partOf M g ws r, x ∈ partOf M g sgw r := by
            intro x hx
            rcases mem_partOf.mp hx with ⟨hx1, hx2⟩
            exact mem_partOf.mpr ⟨hsub x hx1, hx2⟩
          obtain ⟨s1, s2, s3, _⟩ := hrec (partOf M g ws r) (partOf M g sgw r)
            (mc - cost0) (d + 1) pr.1 pr.2 hM (hnd.filter _) hsubpart (by omega)
            (by rw [hsc])
          have hp1 : (1 : Int) ≤ pr.2 := by
            have hmin : min (mc - cost0) 1 = 1 := min_eq_right (by omega)
            omega
          obtain ⟨ih1, ih2, ih3⟩ := ih (cost0 + pr.2) (by omega) hres
          have hfc : (r :: rest).filter (fun r => decide (r ≠ 0))
              = r :: rest.filter (fun r => decide (r ≠ 0)) := by
            simp [hr0]
          rw [hfc]
          refine ⟨by omega, ?_, ?_⟩
          · intro cs hcs
            cases hcs with
            | cons hc hl =>
              have hle := s2 _ hc
              have := ih2 _ hl
              simp only [List.sum_cons]
              omega
          · intro hout
            obtain ⟨cs', hl', heq⟩ := ih3 hout
            have hnn := (achievesD_nonneg M).2 _ _ _ _ _ _ hl'
            have hach : AchievesD M (partOf M g ws r) (partOf M g sgw r) (d + 1) pr.2 :=
              s1 (by omega)
            exact ⟨pr.2 :: cs', .cons hach hl', by simp only [List.sum_cons]; omega⟩

/-- Invariant of the main guess loop: the best cost never increases, any
improvement is genuinely achievable (with a guess recorded), and every guess
still in the list either cannot beat the final best cost or reduces to a
strictly cheaper strategy (the no-information guess case). -/
theorem guessLoop_spec {M : Nat → Nat → Nat}
    {rec : List Nat → List Nat → Int → Nat → Except Err (Option Nat × Int)}
    (hrec : SolveCostSpec M rec) (hM : MValid M)
    {ws sgw : List Nat} {d : Nat}
    (hnd : ws.Nodup) (hsub : ∀ x ∈ ws, x ∈ sgw) (hn : 3 ≤ ws.length) (hd : d ≤ 4) :
    ∀ (l : List Nat) (mg : Option Nat) (mc : Int), (∀ x ∈ l, x ∈ sgw) → mc ≤ 10000 →
      ∀ {mgo : Option Nat} {mco : Int},
      guessLoop rec M ws sgw d l mg mc = .ok (mgo, mco) →
      (mco ≤ mc) ∧
      ((mgo = mg ∧ mco = mc) ∨ (mco < mc ∧ AchievesD M ws sgw d mco ∧ ∃ gg, mgo = some gg)) ∧
      (∀ g' ∈ l, ∀ cs, AchievesDList M g' ws sgw (d + 1) (nonzeroResults M g' ws) cs →
        mco ≤ (ws.length : Int) + cs.sum ∨
        (∃ c1, AchievesD M ws sgw d c1 ∧ 0 ≤ c1 ∧
          c1 + (ws.length : Int) = (ws.length : Int) + cs.sum)) := by
  have hlb : ∀ g'' (cs : List Int),
      AchievesDList M g'' ws sgw (d + 1) (nonzeroResults M g'' ws) cs →
      minPossibleCost M g'' ws ≤ (ws.length : Int) + cs.sum := by
    intro g'' cs hcs
    exact (min_possible_cost_admissible M g'' ws sgw cs 0 hM hnd
      ((achievesD_to_achieves M).2 _ _ _ _ _ _ hcs)).1
  have hlb2 : ∀ g'' (cs : List Int),
      AchievesDList M g'' ws sgw (d + 1) (nonzeroResults M g'' ws) cs →
      2 * (ws.length : Int) - 1 ≤ (ws.length : Int) + cs.sum := by
    intro g'' cs hcs
    have h1 := hlb g'' cs hcs
    have h2 := @min_possible_cost_ge M g'' ws hM hnd
    omega
  intro l
  induction l with
  | nil =>
    intro mg mc hl hmc mgo mco hres
    simp only [guessLoop] at hres
    rw [Except.ok.injEq, Prod.mk.injEq] at hres
    obtain ⟨h1, h2⟩ := hres
    subst h1
    subst h2
    exact ⟨le_refl _, Or.inl ⟨rfl, rfl⟩, by simp⟩
  | cons g rest ih =>
    intro mg mc hl hmc mgo mco hres
    have hgsgw : g ∈ sgw := hl g (List.mem_cons_self g rest)
    have hlrest : ∀ x ∈ rest, x ∈ sgw := fun x hx => hl x (List.mem_cons_of_mem g hx)
    simp only [guessLoop] at hres
    split at hres
    · rename_i hskip
      obtain ⟨G1, G2, G3⟩ := ih mg mc hlrest hmc hres
      refine ⟨G1, G2, ?_⟩
      intro g' hg' cs hcs
      rcases List.mem_cons.mp hg' with rfl | hg'
      · left
        have := hlb g' cs hcs
        omega
      · exact G3 g' hg' cs hcs
    · rename_i hskip
      split at hres
      · rename_i hcond
        exfalso
        obtain ⟨hgw, hmc2⟩ := hcond
        have hc1 : (countsOf (resultsOf M g ws)).sum = (resultsOf M g ws).length :=
          sum_countsOf _
        have hc2 : (countsOf (resultsOf M g ws)).length
            = (uniqueSorted (resultsOf M g ws)).length := by
          simp [countsOf]
        have hc3 : (uniqueSorted (resultsOf M g ws)).length ≤ (resultsOf M g ws).length :=
          uniqueSorted_length_le _
        have hc4 : (resultsOf M g ws).length = ws.length := by simp [resultsOf]
        have hge : 2 * (ws.length : Int) ≤ minPossibleCost M g ws := by
          unfold minPossibleCost
          rw [if_neg hgw]
          omega
        omega
      · rename_i h2n
        split at hres
        · rename_i hcond
          obtain ⟨hgw, hmax⟩ := hcond
          obtain ⟨G1, G2, G3⟩ := ih mg mc hlrest hmc hres
          refine ⟨G1, G2, ?_⟩
          intro g' hg' cs hcs
          rcases List.mem_cons.mp hg' with rfl | hg'
          · right
            obtain ⟨r, hall, hrmem⟩ := results_const_of_max hmax (by omega)
            have hr0 : r ≠ 0 := by
              intro hr
              subst hr
              exact hgw ((zero_mem_resultsOf hM).mp hrmem)
            have hnzc := nonzero_const hall hrmem hr0
            rw [hnzc] at hcs
            cases hcs with
            | cons hc hl0 =>
              cases hl0
              rw [partOf_const hall] at hc
              have hw1 := (achievesD_weaken M).1 _ _ _ _ hc sgw
                (fun x hx => (mem_partOf.mp hx).1)
              have hw2 := (achievesD_relax M).1 _ _ _ _ hw1 d (by omega)
              have hc1nn := (achievesD_nonneg M).1 _ _ _ _ hw2
              refine ⟨_, hw2, hc1nn, ?_⟩
              simp only [List.sum_cons, List.sum_nil]
              omega
          · exact G3 g' hg' cs hcs
        · rename_i hmax
          cases hrl : resLoop rec M ws sgw g d mc
              (byCount (resultsOf M g ws) (uniqueSorted (resultsOf M g ws)))
              (ws.length : Int) with
          | error e =>
            rw [hrl] at hres
            cases hres
          | ok cost =>
            rw [hrl] at hres
            dsimp only at hres
            obtain ⟨R3, R2, R1⟩ := resLoop_spec hrec hM hnd hsub hmc _ _ (by positivity) hrl
            have hperm : ((byCount (resultsOf M g ws) (uniqueSorted (resultsOf M g ws))).filter
                (fun r => decide (r ≠ 0))).Perm (nonzeroResults M g ws) :=
              (byCount_perm _ _).filter _
            have F1 : ∀ cs, AchievesDList M g ws sgw (d + 1) (nonzeroResults M g ws) cs →
                min cost mc ≤ (ws.length : Int) + cs.sum := by
              intro cs hcs
              obtain ⟨cs', hp, hcs'⟩ := achievesDList_perm hperm.symm hcs
              have hr2 := R2 cs' hcs'
              have hsum : cs.sum = cs'.sum := hp.sum_eq
              omega
            have F2 : cost < mc → AchievesD M ws sgw d cost := by
              intro hup
              obtain ⟨cs, hcs, heq⟩ := R1 hup
              obtain ⟨cs', hp, hcs'⟩ := achievesDList_perm hperm hcs
              have hstep := AchievesD.step (show d ≤ 5 by omega) hgsgw hcs'
              have hsum : cs.sum = cs'.sum := hp.sum_eq
              have heq2 : cost = (ws.length : Int) + cs'.sum := by omega
              rw [heq2]
              exact hstep
            by_cases hup : cost < mc
            · simp only [if_pos hup] at hres
              have hmin : min cost mc = cost := min_eq_left (le_of_lt hup)
              split at hres
              · rename_i hopt
                rw [Except.ok.injEq, Prod.mk.injEq] at hres
                obtain ⟨h1, h2⟩ := hres
                subst h1
                subst h2
                refine ⟨by omega, Or.inr ⟨hup, F2 hup, g, rfl⟩, ?_⟩
                intro g' hg' cs hcs
                rcases List.mem_cons.mp hg' with rfl | hg'
                · left
                  have := F1 cs hcs
                  omega
                · left
                  have := hlb2 g' cs hcs
                  omega
              · rename_i hopt
                obtain ⟨G1, G2, G3⟩ := ih (some g) cost hlrest (by omega) hres
                refine ⟨by omega, ?_, ?_⟩
                · rcases G2 with ⟨ha, hb⟩ | ⟨ha, hb, gg, hc⟩
                  · subst hb
                    exact Or.inr ⟨hup, F2 hup, g, ha⟩
                  · exact Or.inr ⟨by omega, hb, gg, hc⟩
                · intro g' hg' cs hcs
                  rcases List.mem_cons.mp hg' with rfl | hg'
                  · left
                    have := F1 cs hcs
                    omega
                  · exact G3 g' hg' cs hcs
            · simp only [if_neg hup] at hres
              have hmin : min cost mc = mc := min_eq_right (by omega)
              split at hres
              · rename_i hopt
                rw [Except.ok.injEq, Prod.mk.injEq] at hres
                obtain ⟨h1, h2⟩ := hres
                subst h1
                subst h2
                refine ⟨le_refl _, Or.inl ⟨rfl, rfl⟩, ?_⟩
                intro g' hg' cs hcs
                rcases List.mem_cons.mp hg' with rfl | hg'
                · left
                  have := F1 cs hcs
                  omega
                · left
                  have := hlb2 g' cs hcs
                  omega
              · rename_i hopt
                obtain ⟨G1, G2, G3⟩ := ih mg mc hlrest hmc hres
                refine ⟨G1, G2, ?_⟩
                intro g' hg' cs hcs
                rcases List.mem_cons.mp hg' with rfl | hg'
                · left
                  have := F1 cs hcs
                  omega
                · exact G3 g' hg' cs hcs

/-- The fuel-indexed `solve_cost` satisfies the pruning contract at every
fuel level. -/
theorem solveCostF_spec (M : Nat → Nat → Nat) : ∀ f, SolveCostSpec M (solveCostF M f) := by
  intro f
  induction f with
  | zero =>
    intro ws gw alpha d mg mc _ _ _ _ hres
    simp [solveCostF] at hres
  | succ f ih =>
    intro ws gw alpha d mg mc hM hnd hsub halpha hres
    unfold solveCostF at hres
    split at hres
    · rename_i hd5
      rw [Except.ok.injEq, Prod.mk.injEq] at hres
      obtain ⟨h1, h2⟩ := hres
      subst h1
      subst h2
      refine ⟨?_, ?_, ?_, ?_⟩
      · intro hlt
        exact absurd halpha (by omega)
      · intro t ht
        exact absurd (achievesD_le_five ht) (by omega)
      · have := min_le_right alpha 1
        omega
      · intro _ hle
        omega
    · rename_i hd5
      split at hres
      · rename_i hdn
        obtain ⟨hdeq, hlen⟩ := hdn
        subst hdeq
        rw [Except.ok.injEq, Prod.mk.injEq] at hres
        obtain ⟨h1, h2⟩ := hres
        subst h1
        subst h2
        refine ⟨?_, ?_, ?_, ?_⟩
        · intro hlt
          exact absurd halpha (by omega)
        · intro t ht
          exact absurd (no_achievesD_deep hM hnd (by omega) ht) (fun h => h)
        · have := min_le_right alpha 1
          omega
        · intro _ hle
          omega
      · rename_i hdn
        split at hres
        · rename_i hn2
          cases ws with
          | nil => simp at hres
          | cons w rest =>
            rw [Except.ok.injEq, Prod.mk.injEq] at hres
            obtain ⟨h1, h2⟩ := hres
            subst h1
            subst h2
            have hd5' : d ≤ 5 := by omega
            refine ⟨?_, ?_, ?_, ?_⟩
            · intro hlt
              cases rest with
              | nil =>
                have := achievesD_singleton hM (hsub w (List.mem_cons_self w [])) hd5'
                simpa using this
              | cons b rest2 =>
                cases rest2 with
                | nil =>
                  have hd4 : d ≤ 4 := by
                    by_cases hdd : d = 5
                    · exfalso
                      exact hdn ⟨hdd, by simp⟩
                    · omega
                  have hwb : w ≠ b := by
                    have := (List.nodup_cons.mp hnd).1
                    simp only [List.mem_cons] at this
                    tauto
                  have := achievesD_pair hM hwb (hsub w (by simp)) (hsub b (by simp)) hd4
                  simpa using this
                | cons c rest3 =>
                  exfalso
                  simp at hn2
            · intro t ht
              have hplain := (achievesD_to_achieves M).1 _ _ _ _ ht
              have := (achieves_lower_bound M hM).1 _ _ _ hplain hnd
              omega
            · have hlen1 : 1 ≤ (w :: rest).length := by simp
              have := min_le_right alpha 1
              have hc : (1 : Int) ≤ 2 * ((w :: rest).length : Int) - 1 := by
                have : (1 : Int) ≤ ((w :: rest).length : Int) := by exact_mod_cast hlen1
                omega
              omega
            · intro hge _
              exfalso
              simp at hn2
              simp at hge
              omega
        · rename_i hn2
          have hn : 3 ≤ ws.length := by
            simp at hn2
            omega
          have hd4 : d ≤ 4 := by
            by_cases hdd : d = 5
            · exfalso
              exact hdn ⟨hdd, by omega⟩
            · omega
          have hsub2 : ∀ x ∈ ws, x ∈ List.insertionSort (fun a b => a ≤ b) gw := by
            intro x hx
            exact (List.mem_insertionSort _).mpr (hsub x hx)
          obtain ⟨G1, G2, G3⟩ := guessLoop_spec ih hM hnd hsub2 hn hd4
            (List.insertionSort (fun a b => a ≤ b) gw) none alpha (fun x hx => hx) halpha hres
          have hback : ∀ x ∈ List.insertionSort (fun a b => a ≤ b) gw, x ∈ gw := by
            intro x hx
            exact (List.mem_insertionSort _).mp hx
          refine ⟨?_, ?_, ?_, ?_⟩
          · intro hlt
            rcases G2 with ⟨_, hb⟩ | ⟨_, hach, _⟩
            · omega
            · exact (achievesD_weaken M).1 _ _ _ _ hach gw hback
          · intro t ht
            have hfwd : ∀ x ∈ gw, x ∈ List.insertionSort (fun a b => a ≤ b) gw :=
              fun x hx => (List.mem_insertionSort _).mpr hx
            have hts : AchievesD M ws (List.insertionSort (fun a b => a ≤ b) gw) d t :=
              (achievesD_weaken M).1 _ _ _ _ ht _ hfwd
            suffices H : ∀ k (t' : Int),
                AchievesD M ws (List.insertionSort (fun a b => a ≤ b) gw) d t' →
                t'.toNat ≤ k → mc ≤ t' by
              exact H t.toNat t hts le_rfl
            intro k
            induction k with
            | zero =>
              intro t' ht' hk
              have h1 := achievesD_ge_len ht'
              exfalso
              omega
            | succ k ihk =>
              intro t' ht' hk
              cases ht' with
              | step hdd hg hl =>
                rename_i g' cs
                rcases G3 g' hg cs hl with h | ⟨c1, hach, hc1, heq⟩
                · exact h
                · have hnn := (achievesD_nonneg M).2 _ _ _ _ _ _ hl
                  have hrec1 := ihk c1 hach (by omega)
                  omega
          · rcases G2 with ⟨_, hb⟩ | ⟨_, hach, _⟩
            · have := min_le_left alpha 1
              omega
            · have h1 := achievesD_ge_len hach
              have := min_le_right alpha 1
              omega
          · intro _ _
            rcases G2 with ⟨ha, hb⟩ | ⟨hlt, _, hgg⟩
            · rw [ha, hb]
              simp
            · obtain ⟨gg, hgg⟩ := hgg
              rw [hgg]
              constructor
              · intro h
                cases h
              · intro h
                omega

/-- Counterexample to claim C1 as stated: the claim requires the returned
guess to be `None` exactly when no guess improves on the incoming alpha.
With `alpha = 0` on a singleton candidate set, no strategy costs less than 0
(all achievable costs are nonnegative), yet the `n <= 2` base case returns the
guess `some 0` (with cost `1 >= alpha`) regardless of alpha. -/
theorem solve_cost_pruning_cex :
    solveCost cexM [0] [0] 0 0 = .ok (some 0, 1) ∧
    (∀ t, AchievesD cexM [0] [0] 0 t → ¬ t < 0) :=
  ⟨by decide, fun t ht h => absurd ((achievesD_nonneg cexM).1 _ _ _ _ ht) (by omega)⟩

/-- Amended claim C1: for a valid outcome matrix, duplicate-free candidates
drawn from the guess set, and any pruning bound `alpha` not exceeding the
sentinel 10000, a successful `solve_cost` call returns a cost that is the true
optimal total cost whenever it beats `alpha` (it is achievable and no strategy
does better), a value `>= alpha` that no strategy beats otherwise — never a
value strictly between the optimum and `alpha` — and, whenever the main search
loop runs (three or more candidates within the depth budget), a guess that is
`None` exactly when no strategy improves on the incoming `alpha`. -/
theorem solve_cost_pruning (M : Nat → Nat → Nat) (ws gw : List Nat) (alpha : Int)
    (d : Nat) (mg : Option Nat) (mc : Int) (hM : MValid M) (hnd : ws.Nodup)
    (hsub : ∀ x ∈ ws, x ∈ gw) (halpha : alpha ≤ 10000)
    (h : solveCost M ws gw alpha d = .ok (mg, mc)) :
    (mc < alpha → AchievesD M ws gw d mc ∧ ∀ t, AchievesD M ws gw d t → mc ≤ t) ∧
    (alpha ≤ mc → ∀ t, AchievesD M ws gw d t → alpha ≤ t) ∧
    (3 ≤ ws.length → d ≤ 4 → (mg = none ↔ alpha ≤ mc)) := by
  obtain ⟨h1, h2, h3, h4⟩ := solveCostF_spec M 7 ws gw alpha d mg mc hM hnd hsub halpha h
  exact ⟨fun hlt => ⟨h1 hlt, h2⟩, fun hge t ht => le_trans hge (h2 t ht), h4⟩

/-- Witness for the amended C1 at a concrete input: three candidates, three
guesses, `alpha = 100`; the engine answers `(some 0, 6)`. -/
theorem solve_cost_pruning_witness :
    ((6 : Int) < 100 → AchievesD cexM [0, 1, 2] [0, 1, 2] 0 6 ∧
      ∀ t, AchievesD cexM [0, 1, 2] [0, 1, 2] 0 t → 6 ≤ t) ∧
    ((100 : Int) ≤ 6 → ∀ t, AchievesD cexM [0, 1, 2] [0, 1, 2] 0 t → 100 ≤ t) ∧
    (3 ≤ ([0, 1, 2] : List Nat).length → 0 ≤ 4 → (some 0 = none ↔ (100 : Int) ≤ 6)) :=
  solve_cost_pruning cexM [0, 1, 2] [0, 1, 2] 100 0 (some 0) 6 cexM_valid
    (by decide) (by decide) (by decide) (by decide)

end WordleSolver
